import Mathlib

/-!
Verification of the stem-transcriber worker pipeline (`src/worker/tasks.py`).

The development shallowly embeds the pure computational content of the
worker module:

* the progress translator of `separate_with_demucs` (the `RE_TQDM_PCT`
  pattern, the fractional fallback `RE_TQDM_FRAC`, clamping and rescaling
  into the `[5, 85]` sub-range, de-duplicated emission);
* `find_stem_folder` over an abstract file-system listing;
* `hz_to_midi` over the reals;
* the jitter-smoothing pass, the contiguous-run segmentation and the
  minimum-duration filter of `transcribe_monophonic`;
* the job-store writes (`state`, `progress`, `message`) performed by both
  tasks, with external effects (subprocess, librosa, pretty_midi, music21)
  abstracted into an environment record.

Python floats are modelled as exact rationals, Python `int()` as
truncation toward zero, and `round` as Mathlib's `round`.
-/

namespace StemTranscriber

/-- Python `int(q)` on a real/float value: truncation toward zero. -/
def pyTrunc (q : ℚ) : ℤ :=
  if q < 0 then ⌈q⌉ else ⌊q⌋

/-- Model of `clamp(n, lo, hi) = max(lo, min(hi, n))` from `tasks.py`. -/
def clamp (n lo hi : ℤ) : ℤ := max lo (min hi n)

/-- The rescaling step of the progress translator:
`pct = clamp(pct, 0, 100); scaled = 5 + int((pct / 100) * 80)`. -/
def scaledOf (p : ℤ) : ℤ :=
  5 + pyTrunc (((clamp p 0 100 : ℤ) : ℚ) / 100 * 80)

/-- The guarded fractional-percentage computation:
`if total > 0: pct = int((x / total) * 100)` (otherwise no percentage). -/
def fracPct (x total : ℚ) : Option ℤ :=
  if 0 < total then some (pyTrunc (x / total * 100)) else none

/-- Value of a run of decimal digit characters, as `int(...)` parses it. -/
def digitsVal (ds : List Char) : ℕ :=
  ds.foldl (fun a c => 10 * a + (c.toNat - 48)) 0

/-- Value of `d1 . f1` as a decimal literal (`float(...)`, modelled exactly). -/
def decVal (ds fs : List Char) : ℚ :=
  (digitsVal ds : ℚ) + (digitsVal fs : ℚ) / (10 ^ fs.length)

/-- The pattern `RE_TQDM_PCT = ^\s*(\d{1,3})%\|` applied with `re.match`:
optional leading whitespace, a run of one to three digits, then a percent
sign immediately followed by a vertical bar.  Returns the digits' value.
(A digit run longer than three characters cannot match: after the group the
regex requires `%`, and backtracking inside the run only exposes digits.) -/
def tqdmPctSplit (ds rest : List Char) : Option ℕ :=
  if 1 ≤ ds.length ∧ ds.length ≤ 3 then
    match rest with
    | '%' :: '|' :: _ => some (digitsVal ds)
    | _ => none
  else none

def tqdmPctAfterWs (cs : List Char) : Option ℕ :=
  tqdmPctSplit (cs.takeWhile Char.isDigit)
    (cs.drop (cs.takeWhile Char.isDigit).length)

def matchTqdmPct (s : String) : Option ℕ :=
  tqdmPctAfterWs (s.data.dropWhile Char.isWhitespace)

/-- One anchored attempt of `RE_TQDM_FRAC = (\d+(?:\.\d+)?)/(\d+(?:\.\d+)?)`:
digits (with an optional fractional part) then `/` then digits (with an
optional fractional part), starting at the head of `cs`.  Returns the two
numeric values.  Backtracking is resolved as in Python `re`: after a greedy
digit run the next character is not a digit, so a position matches exactly
when the runs line up as below. -/
def fracSplitAt (cs : List Char) :
    Option ((List Char × List Char) × (List Char × List Char)) :=
  let d1 := cs.takeWhile Char.isDigit
  if d1.length = 0 then none
  else
    let numAndRest : Option ((List Char × List Char) × List Char) :=
      match cs.drop d1.length with
      | '.' :: t =>
        let f1 := t.takeWhile Char.isDigit
        if f1.length = 0 then none
        else
          match t.drop f1.length with
          | '/' :: u => some ((d1, f1), u)
          | _ => none
      | '/' :: u => some ((d1, []), u)
      | _ => none
    match numAndRest with
    | none => none
    | some (n1, u) =>
      let d2 := u.takeWhile Char.isDigit
      if d2.length = 0 then none
      else
        match u.drop d2.length with
        | '.' :: t2 =>
          let f2 := t2.takeWhile Char.isDigit
          if f2.length = 0 then some (n1, (d2, []))
          else some (n1, (d2, f2))
        | _ => some (n1, (d2, []))

def searchFracSplit : List Char → Option ((List Char × List Char) × (List Char × List Char))
  | [] => none
  | c :: cs =>
    match fracSplitAt (c :: cs) with
    | some r => some r
    | none => searchFracSplit cs

/-- Model of `re.search` with `RE_TQDM_FRAC`: try every start position
left to right, then read the two matched groups as decimal literals. -/
def searchFrac (cs : List Char) : Option (ℚ × ℚ) :=
  (searchFracSplit cs).map (fun p => (decVal p.1.1 p.1.2, decVal p.2.1 p.2.2))

/-- The per-line percentage extraction of `separate_with_demucs`:
first `RE_TQDM_PCT.match`, else `RE_TQDM_FRAC.search` guarded by
`total > 0`. -/
def pctOfLine (line : String) : Option ℤ :=
  match matchTqdmPct line with
  | some n => some (n : ℤ)
  | none =>
    match searchFrac line.data with
    | some (x, total) => fracPct x total
    | none => none

/-- Length of the leading run of elements equal to `v`
(the number of extra frames the inner `while` of the note builder consumes). -/
def runLen (v : ℤ) : List ℤ → ℕ
  | [] => 0
  | x :: xs => if x = v then runLen v xs + 1 else 0

/-- Fuel-indexed embedding of the note-building `while` loop of
`transcribe_monophonic` (frame times are `index * hop`):

```
while i < len(midi_frame):
    if midi_frame[i] < 0: i += 1; continue
    note = midi_frame[i]; start_t = times[i]
    j = i + 1
    while j < len(midi_frame) and midi_frame[j] == note: j += 1
    end_t = times[j-1] + hop
    if end_t - start_t >= min_note_len_s: notes.append((note, start_t, end_t))
    i = j
```

The fuel dominates the length of the remaining frame list; each step
consumes at least one frame, so `buildNotes` below supplies enough fuel. -/
def buildNotesAux (hop endHop minLen : ℚ) : ℕ → List ℤ → ℕ → List (ℤ × ℚ × ℚ)
  | 0, _, _ => []
  | _ + 1, [], _ => []
  | fuel + 1, x :: xs, i =>
    if x < 0 then buildNotesAux hop endHop minLen fuel xs (i + 1)
    else
      let m := runLen x xs
      let start : ℚ := (i : ℚ) * hop
      let endT : ℚ := ((i + m : ℕ) : ℚ) * hop + endHop
      let rest := buildNotesAux hop endHop minLen fuel (xs.drop m) (i + m + 1)
      if minLen ≤ endT - start then (x, start, endT) :: rest else rest

/-- The note-building loop over a whole frame list, started at index `i`. -/
def buildNotes (hop endHop minLen : ℚ) (l : List ℤ) (i : ℕ) : List (ℤ × ℚ × ℚ) :=
  buildNotesAux hop endHop minLen l.length l i

/-- The segmentation-and-filter stage as called by `transcribe_monophonic`:
`end_t` is extended by `times[1] - times[0]` (one hop) when at least two
frames exist, by the literal `0.01` otherwise. -/
def segmentNotes (hop minLen : ℚ) (frames : List ℤ) : List (ℤ × ℚ × ℚ) :=
  buildNotes hop (if 2 ≤ frames.length then hop else 1 / 100) minLen frames 0

/-- Maximal runs of equal values: `(value, start index, run length)`.
This is the plain reading of the spec's "each maximal run of frames sharing
an identical note", used to state the segmentation claim. -/
def runsFrom : List ℤ → ℕ → List (ℤ × ℕ × ℕ)
  | [], _ => []
  | x :: xs, i =>
    let m := runLen x xs
    (x, i, m + 1) :: runsFrom (xs.drop m) (i + m + 1)
termination_by l _ => l.length
decreasing_by
  simp only [List.length_drop, List.length_cons]
  omega

/-- The note the spec assigns to a run: `start_time` is the time of the
run's first frame, `end_time` the time of its last frame plus one hop. -/
def noteOfRun (hop : ℚ) (r : ℤ × ℕ × ℕ) : ℤ × ℚ × ℚ :=
  (r.1, (r.2.1 : ℚ) * hop, ((r.2.1 + r.2.2 - 1 : ℕ) : ℚ) * hop + hop)

/-- Python `np.median` on a nonempty integer list (exact rational value):
sort ascending, take the middle element, or the mean of the two middle ones. -/
def npMedian (l : List ℤ) : ℚ :=
  let s := l.insertionSort (· ≤ ·)
  let n := s.length
  if n % 2 = 1 then ((s.getD (n / 2) 0 : ℤ) : ℚ)
  else (((s.getD (n / 2 - 1) 0 + s.getD (n / 2) 0 : ℤ) : ℚ)) / 2

/-- Model of `int(np.median(vals))` from the smoothing pass. -/
def npMedianInt (l : List ℤ) : ℤ := pyTrunc (npMedian l)

/-- The five current values `midi_frame[i-2:i+3]` around index `i`. -/
def windowAt (a : List ℤ) (i : ℕ) : List ℤ :=
  (List.range' (i - 2) 5).map (fun j => a.getD j 0)

/-- One iteration of the jitter-smoothing loop: read the current window,
keep the non-sentinel values, and overwrite index `i` with their median
when at least three remain. -/
def smoothStep (a : List ℤ) (i : ℕ) : List ℤ :=
  let vals := (windowAt a i).filter (fun v => decide (0 ≤ v))
  if 3 ≤ vals.length then a.set i (npMedianInt vals) else a

/-- The jitter-smoothing pass of `transcribe_monophonic`:
`for i in range(2, len(midi_frame) - 2)` applied to the array in place. -/
def smoothMidi (a : List ℤ) : List ℤ :=
  (List.range' 2 (a.length - 4)).foldl smoothStep a

/-- The smoothing step as the specification sentence reads if every window
is taken from the unmodified input sequence (a snapshot semantics): each
interior frame is replaced by the median of the non-sentinel values of the
input's 5-frame window when at least three are non-sentinel. -/
def smoothSnapshotClaim (a : List ℤ) : List ℤ :=
  (List.range a.length).map (fun i =>
    if 2 ≤ i ∧ i + 2 < a.length then
      let vals := (windowAt a i).filter (fun v => decide (0 ≤ v))
      if 3 ≤ vals.length then npMedianInt vals else a.getD i 0
    else a.getD i 0)

/-- Model of `hz_to_midi(hz) = int(round(69 + 12 * np.log2(hz / 440.0)))`
over the reals, with exact logarithms and round-half-up. -/
noncomputable def hz_to_midi (hz : ℝ) : ℤ :=
  round ((69 : ℝ) + 12 * Real.logb 2 (hz / 440))

/-- C4: `hz_to_midi` computes `round(69 + 12*log2(f/440))` as an integer,
so `hz_to_midi 440 = 69`, `hz_to_midi 880 = 81`, `hz_to_midi 220 = 57`, and
for every positive frequency `f`, `hz_to_midi (f*2) = hz_to_midi f + 12`. -/
theorem hz_to_midi_spec :
    hz_to_midi 440 = 69 ∧ hz_to_midi 880 = 81 ∧ hz_to_midi 220 = 57 ∧
      ∀ f : ℝ, 0 < f → hz_to_midi (f * 2) = hz_to_midi f + 12 := by
  have h2 : (1 : ℝ) < 2 := by norm_num
  refine ⟨?_, ?_, ?_, ?_⟩
  · unfold hz_to_midi
    rw [div_self (by norm_num : (440 : ℝ) ≠ 0), Real.logb_one]
    norm_num [round_eq]
  · unfold hz_to_midi
    rw [show (880 : ℝ) / 440 = 2 by norm_num, Real.logb_self_eq_one h2]
    norm_num [round_eq]
  · unfold hz_to_midi
    rw [show (220 : ℝ) / 440 = (2 : ℝ)⁻¹ by norm_num, Real.logb_inv,
      Real.logb_self_eq_one h2]
    norm_num [round_eq]
  · intro f hf
    unfold hz_to_midi
    rw [show f * 2 / 440 = f / 440 * 2 by ring,
      Real.logb_mul (div_ne_zero (ne_of_gt hf) (by norm_num)) (by norm_num),
      Real.logb_self_eq_one h2]
    have hre : (69 : ℝ) + 12 * (Real.logb 2 (f / 440) + 1) =
        (69 + 12 * Real.logb 2 (f / 440)) + ((12 : ℤ) : ℝ) := by
      push_cast
      ring
    rw [hre, round_add_int]

/-- Witness for C4's octave property at `f = 440`. -/
theorem hz_to_midi_spec_witness :
    (0 : ℝ) < 440 ∧ hz_to_midi (440 * 2) = hz_to_midi 440 + 12 :=
  ⟨by norm_num, hz_to_midi_spec.2.2.2 440 (by norm_num)⟩

theorem pyTrunc_eq_floor {q : ℚ} (h : 0 ≤ q) : pyTrunc q = ⌊q⌋ := by
  simp [pyTrunc, not_lt.mpr h]

theorem scaledOf_bounds (p : ℤ) : 5 ≤ scaledOf p ∧ scaledOf p ≤ 85 := by
  unfold scaledOf clamp
  have hc0 : (0 : ℤ) ≤ max 0 (min 100 p) := le_max_left _ _
  have hc100 : max 0 (min 100 p) ≤ 100 := max_le (by norm_num) (min_le_left _ _)
  have hq0 : (0 : ℚ) ≤ ((max 0 (min 100 p) : ℤ) : ℚ) / 100 * 80 := by
    have : (0 : ℚ) ≤ ((max 0 (min 100 p) : ℤ) : ℚ) := by exact_mod_cast hc0
    have h100 : (0 : ℚ) ≤ ((max 0 (min 100 p) : ℤ) : ℚ) / 100 :=
      div_nonneg this (by norm_num)
    nlinarith
  have hq80 : ((max 0 (min 100 p) : ℤ) : ℚ) / 100 * 80 ≤ 80 := by
    have : ((max 0 (min 100 p) : ℤ) : ℚ) ≤ 100 := by exact_mod_cast hc100
    linarith
  rw [pyTrunc_eq_floor hq0]
  have hf0 : (0 : ℤ) ≤ ⌊((max 0 (min 100 p) : ℤ) : ℚ) / 100 * 80⌋ :=
    Int.floor_nonneg.mpr hq0
  have hf80 : ⌊((max 0 (min 100 p) : ℤ) : ℚ) / 100 * 80⌋ ≤ 80 := by
    have := Int.floor_le_floor (α := ℚ) hq80
    simpa using this
  omega

/-- C5: whenever the fractional-progress pattern extracts a numerator and a
positive denominator, the rescaled value emitted for the sub-range
`[5, 85]` lies within `[5, 85]` inclusive. -/
theorem frac_scaled_in_sub_range (x total : ℚ) (pct : ℤ) (hx : 0 ≤ x)
    (ht : 0 < total) (h : fracPct x total = some pct) :
    5 ≤ scaledOf pct ∧ scaledOf pct ≤ 85 :=
  scaledOf_bounds pct

/-- Witness for C5 at the extraction `1/3` (pct = 33, scaled = 31). -/
theorem frac_scaled_in_sub_range_witness :
    (0 : ℚ) ≤ 1 ∧ (0 : ℚ) < 3 ∧ fracPct 1 3 = some 33 ∧
      (5 ≤ scaledOf 33 ∧ scaledOf 33 ≤ 85) :=
  ⟨by norm_num, by norm_num, by norm_num [fracPct, pyTrunc],
    frac_scaled_in_sub_range 1 3 33 (by norm_num) (by norm_num)
      (by norm_num [fracPct, pyTrunc])⟩

/-- C6 counterexample: the code truncates rather than rounds.  On the line
`"2/3"` it computes `pct = int(2/3*100) = 66`, while
`round(2/3*100) = 67`; likewise the rescale step gives `5 + int(52.8) = 57`
while `5 + round(66/100*80) = 58`. -/
theorem frac_progress_round_cex :
    pctOfLine "2/3" = some 66 ∧ round ((2 : ℚ) / 3 * 100) = 67 ∧
      scaledOf 66 = 57 ∧ 5 + round ((66 : ℚ) / 100 * 80) = 58 := by
  refine ⟨?_, ?_, ?_, ?_⟩
  · have hm : matchTqdmPct "2/3" = none := by decide
    have hsplit : searchFracSplit "2/3".data = some ((['2'], []), (['3'], [])) := by
      decide
    have hs : searchFrac "2/3".data = some (2, 3) := by
      rw [searchFrac, hsplit]
      norm_num [decVal, digitsVal, show '2'.toNat = 50 from rfl,
        show '3'.toNat = 51 from rfl]
    rw [pctOfLine, hm, hs]
    norm_num [fracPct, pyTrunc]
  · rw [round_eq]
    norm_num
  · norm_num [scaledOf, clamp, pyTrunc]
  · rw [round_eq]
    norm_num

/-- C6 (amended): on the fractional-progress path the percentage is
`current/total*100` truncated toward zero (the floor, both being
nonnegative), and the value emitted for the sub-range `[lo, hi] = [5, 85]`
is `lo + trunc(pct/100 * (hi-lo))`, again truncated, for every matched
line with `total > 0`. -/
theorem frac_progress_trunc (x total : ℚ) (p : ℤ) (hx : 0 ≤ x)
    (ht : 0 < total) :
    fracPct x total = some ⌊x * 100 / total⌋ ∧
      (0 ≤ p → p ≤ 100 → scaledOf p = 5 + ⌊(p : ℚ) * 80 / 100⌋) := by
  constructor
  · unfold fracPct
    rw [if_pos ht,
      pyTrunc_eq_floor (by positivity : (0 : ℚ) ≤ x / total * 100),
      show x / total * 100 = x * 100 / total by ring]
  · intro h0 h100
    unfold scaledOf clamp
    rw [min_eq_right h100, max_eq_right h0,
      pyTrunc_eq_floor (by positivity : (0 : ℚ) ≤ ((p : ℤ) : ℚ) / 100 * 80),
      show ((p : ℤ) : ℚ) / 100 * 80 = (p : ℚ) * 80 / 100 by ring]

/-- Witness for C6's amended statement at `x = 2, total = 3, p = 66`. -/
theorem frac_progress_trunc_witness :
    (0 : ℚ) ≤ 2 ∧ (0 : ℚ) < 3 ∧
      (fracPct 2 3 = some ⌊(2 : ℚ) * 100 / 3⌋ ∧
        ((0 : ℤ) ≤ 66 → (66 : ℤ) ≤ 100 →
          scaledOf 66 = 5 + ⌊((66 : ℤ) : ℚ) * 80 / 100⌋)) :=
  ⟨by norm_num, by norm_num, frac_progress_trunc 2 3 66 (by norm_num) (by norm_num)⟩

theorem digit_not_whitespace (c : Char) (h : c.isDigit = true) :
    c.isWhitespace = false := by
  by_contra hw
  rw [Bool.not_eq_false] at hw
  simp only [Char.isWhitespace, Bool.or_eq_true, decide_eq_true_eq] at hw
  rcases hw with ((rfl | rfl) | rfl) | rfl <;> exact absurd h (by decide)

theorem dropWhile_append_of_all {p : Char → Bool} :
    ∀ {ws t : List Char}, (∀ c ∈ ws, p c = true) →
      List.dropWhile p (ws ++ t) = List.dropWhile p t := by
  intro ws
  induction ws with
  | nil => intro t _; rfl
  | cons c cs ih =>
    intro t h
    rw [List.cons_append, List.dropWhile_cons_of_pos (h c (by simp))]
    exact ih fun d hd => h d (by simp [hd])

/-- C7 counterexample: a line consisting of a number immediately followed
by a percent sign does not match `RE_TQDM_PCT` — the pattern also requires
a vertical bar right after the percent sign. -/
theorem tqdm_pct_cex : matchTqdmPct "65%" = none := by decide

/-- C7 (amended): a line starting with optional whitespace, then one to
three digits, then a percent sign immediately followed by a vertical bar,
matches the leading-percentage-marker pattern, which extracts the digits'
value. -/
theorem tqdm_pct_match (ws ds rest : List Char)
    (hws : ∀ c ∈ ws, c.isWhitespace = true)
    (hds : ∀ c ∈ ds, c.isDigit = true)
    (h1 : 1 ≤ ds.length) (h3 : ds.length ≤ 3) :
    matchTqdmPct (String.mk (ws ++ ds ++ '%' :: '|' :: rest)) =
      some (digitsVal ds) := by
  have hdata : (String.mk (ws ++ ds ++ '%' :: '|' :: rest)).data =
      ws ++ ds ++ '%' :: '|' :: rest := rfl
  rw [matchTqdmPct, hdata, List.append_assoc, dropWhile_append_of_all hws]
  have hdw : List.dropWhile Char.isWhitespace (ds ++ '%' :: '|' :: rest) =
      ds ++ '%' :: '|' :: rest := by
    cases ds with
    | nil => simp at h1
    | cons d ds' =>
      rw [List.cons_append, List.dropWhile_cons_of_neg]
      rw [digit_not_whitespace d (hds d (by simp))]
      simp
  have htw : List.takeWhile Char.isDigit (ds ++ '%' :: '|' :: rest) = ds := by
    rw [List.takeWhile_append_of_pos hds, List.takeWhile_cons_of_neg (by decide),
      List.append_nil]
  have hdrop : List.drop ds.length (ds ++ '%' :: '|' :: rest) =
      '%' :: '|' :: rest := List.drop_left ds _
  rw [hdw, tqdmPctAfterWs, htw, hdrop, tqdmPctSplit, if_pos ⟨h1, h3⟩]

/-- Witness for C7's amended statement at the line `" 65%|"`. -/
theorem tqdm_pct_match_witness :
    (∀ c ∈ [' '], c.isWhitespace = true) ∧
      (∀ c ∈ ['6', '5'], c.isDigit = true) ∧
      matchTqdmPct (String.mk ([' '] ++ ['6', '5'] ++ '%' :: '|' :: [])) =
        some (digitsVal ['6', '5']) :=
  ⟨by decide, by decide,
    tqdm_pct_match [' '] ['6', '5'] [] (by decide) (by decide) (by decide) (by decide)⟩

theorem buildNotesAux_nil (hop endHop minLen : ℚ) :
    ∀ fuel i, buildNotesAux hop endHop minLen fuel [] i = [] := by
  intro fuel i
  cases fuel <;> rfl

theorem buildNotesAux_irrel (hop endHop minLen : ℚ) :
    ∀ f1 : ℕ, ∀ l : List ℤ, l.length ≤ f1 → ∀ f2 : ℕ, l.length ≤ f2 →
      ∀ i : ℕ, buildNotesAux hop endHop minLen f1 l i =
        buildNotesAux hop endHop minLen f2 l i := by
  intro f1
  induction f1 with
  | zero =>
    intro l hl f2 _ i
    have hnil : l = [] := List.eq_nil_of_length_eq_zero (Nat.le_zero.mp hl)
    subst hnil
    rw [buildNotesAux_nil, buildNotesAux_nil]
  | succ f ih =>
    intro l hl f2 hl2 i
    cases l with
    | nil => rw [buildNotesAux_nil, buildNotesAux_nil]
    | cons x xs =>
      cases f2 with
      | zero => simp at hl2
      | succ f2' =>
        simp only [List.length_cons, Nat.succ_le_succ_iff] at hl hl2
        simp only [buildNotesAux]
        by_cases hx : x < 0
        · rw [if_pos hx, if_pos hx]
          exact ih xs hl f2' hl2 (i + 1)
        · rw [if_neg hx, if_neg hx]
          have hlen : (xs.drop (runLen x xs)).length ≤ xs.length := by
            simp [List.length_drop]
          rw [ih (xs.drop (runLen x xs)) (le_trans hlen hl) f2'
            (le_trans hlen hl2) (i + runLen x xs + 1)]

theorem buildNotesAux_skip (hop endHop minLen : ℚ) (x : ℤ) (hx : x < 0) :
    ∀ l : List ℤ, ∀ fuel : ℕ, l.length ≤ fuel → ∀ i : ℕ,
      buildNotesAux hop endHop minLen fuel l i =
        buildNotesAux hop endHop minLen fuel (l.drop (runLen x l))
          (i + runLen x l) := by
  intro l
  induction l with
  | nil =>
    intro fuel _ i
    simp [runLen]
  | cons y ys ih =>
    intro fuel hf i
    by_cases hyx : y = x
    · subst hyx
      cases fuel with
      | zero => simp at hf
      | succ f =>
        simp only [List.length_cons, Nat.succ_le_succ_iff] at hf
        have hstep : buildNotesAux hop endHop minLen (f + 1) (y :: ys) i =
            buildNotesAux hop endHop minLen f ys (i + 1) := by
          simp only [buildNotesAux]
          rw [if_pos hx]
        rw [hstep, ih f hf (i + 1)]
        have hrl : runLen y (y :: ys) = runLen y ys + 1 := by
          simp [runLen]
        rw [hrl]
        have hdrop : (y :: ys).drop (runLen y ys + 1) = ys.drop (runLen y ys) :=
          rfl
        rw [hdrop]
        have hidx : i + 1 + runLen y ys = i + (runLen y ys + 1) := by omega
        rw [hidx]
        exact buildNotesAux_irrel hop endHop minLen f _
          (le_trans (by simp [List.length_drop]) hf) (f + 1)
          (le_trans (by simp [List.length_drop]) (Nat.le_succ_of_le hf)) _
    · have hrl : runLen x (y :: ys) = 0 := by
        simp [runLen, hyx]
      rw [hrl]
      simp

theorem buildNotesAux_eq_runs (hop : ℚ) (hhop : 0 ≤ hop) :
    ∀ fuel : ℕ, ∀ l : List ℤ, l.length ≤ fuel → ∀ i : ℕ,
      buildNotesAux hop hop 0 fuel l i =
        ((runsFrom l i).filter (fun r => decide (0 ≤ r.1))).map (noteOfRun hop) := by
  intro fuel
  induction fuel with
  | zero =>
    intro l hl i
    have hnil : l = [] := List.eq_nil_of_length_eq_zero (Nat.le_zero.mp hl)
    subst hnil
    simp [runsFrom, buildNotesAux_nil]
  | succ f ih =>
    intro l hl i
    cases l with
    | nil => simp [runsFrom, buildNotesAux_nil]
    | cons x xs =>
      simp only [List.length_cons, Nat.succ_le_succ_iff] at hl
      have hdlen : (xs.drop (runLen x xs)).length ≤ f :=
        le_trans (by simp [List.length_drop]) hl
      have hruns : runsFrom (x :: xs) i =
          (x, i, runLen x xs + 1) ::
            runsFrom (xs.drop (runLen x xs)) (i + runLen x xs + 1) := by
        rw [runsFrom]
      by_cases hx : x < 0
      · have hstep : buildNotesAux hop hop 0 (f + 1) (x :: xs) i =
            buildNotesAux hop hop 0 f xs (i + 1) := by
          simp only [buildNotesAux]
          rw [if_pos hx]
        rw [hstep, buildNotesAux_skip hop hop 0 x hx xs f hl (i + 1),
          ih (xs.drop (runLen x xs)) hdlen (i + 1 + runLen x xs), hruns,
          List.filter_cons]
        have hneg : (decide (0 ≤ x) : Bool) = false := by
          simp [hx.not_le]
        rw [hneg]
        have hidx : i + 1 + runLen x xs = i + runLen x xs + 1 := by omega
        rw [hidx]
        simp
      · have hx0 : (0 : ℤ) ≤ x := not_lt.mp hx
        have hcond : (0 : ℚ) ≤
            ((i + runLen x xs : ℕ) : ℚ) * hop + hop - (i : ℚ) * hop := by
          push_cast
          have h1 : (0 : ℚ) ≤ (runLen x xs : ℚ) := by positivity
          nlinarith
        have hstep : buildNotesAux hop hop 0 (f + 1) (x :: xs) i =
            (x, (i : ℚ) * hop, ((i + runLen x xs : ℕ) : ℚ) * hop + hop) ::
              buildNotesAux hop hop 0 f (xs.drop (runLen x xs))
                (i + runLen x xs + 1) := by
          simp only [buildNotesAux]
          rw [if_neg hx, if_pos hcond]
        rw [hstep, ih (xs.drop (runLen x xs)) hdlen (i + runLen x xs + 1), hruns,
          List.filter_cons]
        have hpos : (decide (0 ≤ x) : Bool) = true := by
          simp [hx0]
        rw [hpos]
        have hnote : noteOfRun hop (x, i, runLen x xs + 1) =
            (x, (i : ℚ) * hop, ((i + runLen x xs : ℕ) : ℚ) * hop + hop) := by
          unfold noteOfRun
          have hidx : i + (runLen x xs + 1) - 1 = i + runLen x xs := by omega
          simp only [hidx]
        simp only [if_true, List.map_cons, hnote]

theorem buildNotesAux_start_le (hop endHop minLen : ℚ) (hhop : 0 ≤ hop) :
    ∀ fuel : ℕ, ∀ l : List ℤ, ∀ i : ℕ,
      ∀ nt ∈ buildNotesAux hop endHop minLen fuel l i, (i : ℚ) * hop ≤ nt.2.1 := by
  intro fuel
  induction fuel with
  | zero =>
    intro l i nt h
    rw [buildNotesAux] at h
    simp at h
  | succ f ih =>
    intro l i nt h
    cases l with
    | nil =>
      rw [buildNotesAux_nil] at h
      simp at h
    | cons x xs =>
      simp only [buildNotesAux] at h
      by_cases hx : x < 0
      · rw [if_pos hx] at h
        have hle : (i : ℚ) * hop ≤ ((i + 1 : ℕ) : ℚ) * hop := by
          push_cast
          nlinarith
        exact le_trans hle (ih xs (i + 1) nt h)
      · rw [if_neg hx] at h
        have hrest : ∀ nt ∈ buildNotesAux hop endHop minLen f
            (xs.drop (runLen x xs)) (i + runLen x xs + 1),
            (i : ℚ) * hop ≤ nt.2.1 := by
          intro nt2 h2
          have hle : (i : ℚ) * hop ≤ ((i + runLen x xs + 1 : ℕ) : ℚ) * hop := by
            push_cast
            have h1 : (0 : ℚ) ≤ (runLen x xs : ℚ) := by positivity
            nlinarith
          exact le_trans hle (ih _ _ nt2 h2)
        by_cases hc : minLen ≤ ((i + runLen x xs : ℕ) : ℚ) * hop + endHop -
            (i : ℚ) * hop
        · rw [if_pos hc] at h
          rcases List.mem_cons.mp h with rfl | hmem
          · exact le_refl _
          · exact hrest nt hmem
        · rw [if_neg hc] at h
          exact hrest nt h

theorem buildNotesAux_chain (hop endHop minLen : ℚ) (hhop : 0 ≤ hop)
    (hend : endHop ≤ hop) :
    ∀ fuel : ℕ, ∀ l : List ℤ, ∀ i : ℕ,
      List.Chain' (fun a b : ℤ × ℚ × ℚ => a.2.1 ≤ b.2.1 ∧ a.2.2 ≤ b.2.1)
        (buildNotesAux hop endHop minLen fuel l i) := by
  intro fuel
  induction fuel with
  | zero =>
    intro l i
    rw [buildNotesAux]
    exact List.chain'_nil
  | succ f ih =>
    intro l i
    cases l with
    | nil =>
      rw [buildNotesAux_nil]
      exact List.chain'_nil
    | cons x xs =>
      simp only [buildNotesAux]
      by_cases hx : x < 0
      · rw [if_pos hx]
        exact ih xs (i + 1)
      · rw [if_neg hx]
        by_cases hc : minLen ≤ ((i + runLen x xs : ℕ) : ℚ) * hop + endHop -
            (i : ℚ) * hop
        · rw [if_pos hc, List.chain'_cons']
          refine ⟨?_, ih _ _⟩
          intro y hy
          have hmem : y ∈ buildNotesAux hop endHop minLen f
              (xs.drop (runLen x xs)) (i + runLen x xs + 1) :=
            List.mem_of_mem_head? hy
          have hstart := buildNotesAux_start_le hop endHop minLen hhop f
            (xs.drop (runLen x xs)) (i + runLen x xs + 1) y hmem
          have hnext : ((i + runLen x xs : ℕ) : ℚ) * hop + endHop ≤
              ((i + runLen x xs + 1 : ℕ) : ℚ) * hop := by
            push_cast
            nlinarith
          constructor
          · have hle : (i : ℚ) * hop ≤ ((i + runLen x xs + 1 : ℕ) : ℚ) * hop := by
              push_cast
              have h1 : (0 : ℚ) ≤ (runLen x xs : ℚ) := by positivity
              nlinarith
            exact le_trans hle hstart
          · exact le_trans hnext hstart
        · rw [if_neg hc]
          exact ih _ _

theorem buildNotesAux_short (hop endHop minLen : ℚ) :
    ∀ fuel : ℕ, ∀ l : List ℤ, l.length ≤ 1 → ∀ i : ℕ,
      (buildNotesAux hop endHop minLen fuel l i).length ≤ 1 := by
  intro fuel l hl i
  cases l with
  | nil =>
    rw [buildNotesAux_nil]
    simp
  | cons x xs =>
    have hxs : xs = [] := by
      cases xs with
      | nil => rfl
      | cons y ys => simp at hl
    subst hxs
    cases fuel with
    | zero =>
      rw [buildNotesAux]
      simp
    | succ f =>
      simp only [buildNotesAux]
      by_cases hx : x < 0
      · rw [if_pos hx, buildNotesAux_nil]
        simp
      · rw [if_neg hx]
        have hrl : runLen x ([] : List ℤ) = 0 := rfl
        by_cases hc : minLen ≤ ((i + runLen x ([] : List ℤ) : ℕ) : ℚ) * hop +
            endHop - (i : ℚ) * hop
        · rw [if_pos hc]
          simp [hrl, buildNotesAux_nil]
        · rw [if_neg hc]
          simp [hrl, buildNotesAux_nil]

/-- C1: the note list produced by the segmentation-and-filter stage is
sorted by start time and non-overlapping: for consecutive notes
`(p1, s1, e1)` and `(p2, s2, e2)` in output order, `s1 ≤ s2` and
`e1 ≤ s2`. -/
theorem notes_sorted_nonoverlapping (hop minLen : ℚ) (frames : List ℤ)
    (hhop : 0 ≤ hop) :
    List.Chain' (fun a b : ℤ × ℚ × ℚ => a.2.1 ≤ b.2.1 ∧ a.2.2 ≤ b.2.1)
      (segmentNotes hop minLen frames) := by
  unfold segmentNotes buildNotes
  by_cases h2 : 2 ≤ frames.length
  · rw [if_pos h2]
    exact buildNotesAux_chain hop hop minLen hhop le_rfl frames.length frames 0
  · rw [if_neg h2]
    have hshort := buildNotesAux_short hop (1 / 100) minLen frames.length
      frames (by omega) 0
    cases hres : buildNotesAux hop (1 / 100) minLen frames.length frames 0 with
    | nil => exact List.chain'_nil
    | cons a tl =>
      rw [hres] at hshort
      have htl : tl = [] := by
        cases tl with
        | nil => rfl
        | cons b tb => simp at hshort
      subst htl
      exact List.chain'_singleton a

/-- Witness for C1 at `hop = 256/22050`, `minLen = 6/100`,
`frames = [60, 60, 62]`. -/
theorem notes_sorted_nonoverlapping_witness :
    (0 : ℚ) ≤ 256 / 22050 ∧
      List.Chain' (fun a b : ℤ × ℚ × ℚ => a.2.1 ≤ b.2.1 ∧ a.2.2 ≤ b.2.1)
        (segmentNotes (256 / 22050) (6 / 100) [60, 60, 62]) :=
  ⟨by norm_num,
    notes_sorted_nonoverlapping (256 / 22050) (6 / 100) [60, 60, 62] (by norm_num)⟩

/-- C2: each maximal run of consecutive frames holding the same
non-sentinel note becomes one candidate note, starting at the run's first
frame time and ending one hop after the run's last frame time; in
particular segmentation of `[60,60,60,62,62,65,65,65]` at hop `0.01` with
zero minimum duration yields exactly the three contiguous notes. -/
theorem segmentation_runs :
    (∀ (hop : ℚ) (frames : List ℤ), 0 ≤ hop →
      buildNotes hop hop 0 frames 0 =
        ((runsFrom frames 0).filter (fun r => decide (0 ≤ r.1))).map
          (noteOfRun hop)) ∧
      segmentNotes (1 / 100) 0 [60, 60, 60, 62, 62, 65, 65, 65] =
        [(60, 0, 3 / 100), (62, 3 / 100, 5 / 100), (65, 5 / 100, 8 / 100)] := by
  constructor
  · intro hop frames hhop
    exact buildNotesAux_eq_runs hop hhop frames.length frames le_rfl 0
  · norm_num [segmentNotes, buildNotes, buildNotesAux, runLen]

/-- Witness for C2's general statement at `hop = 1/100`,
`frames = [60, -1]`. -/
theorem segmentation_runs_witness :
    (0 : ℚ) ≤ 1 / 100 ∧
      buildNotes (1 / 100) (1 / 100) 0 [60, -1] 0 =
        ((runsFrom [60, -1] 0).filter (fun r => decide (0 ≤ r.1))).map
          (noteOfRun (1 / 100)) :=
  ⟨by norm_num, segmentation_runs.1 (1 / 100) [60, -1] (by norm_num)⟩

theorem getD_set_of_ne (l : List ℤ) (i j : ℕ) (v : ℤ) (h : i ≠ j) :
    (l.set i v).getD j 0 = l.getD j 0 := by
  rw [List.getD_eq_getElem?_getD, List.getD_eq_getElem?_getD,
    List.getElem?_set_ne h]

theorem getD_set_self (l : List ℤ) (i : ℕ) (v : ℤ) (h : i < l.length) :
    (l.set i v).getD i 0 = v := by
  rw [List.getD_eq_getElem?_getD, List.getElem?_set]
  simp [h]

theorem smoothStep_length (a : List ℤ) (i : ℕ) :
    (smoothStep a i).length = a.length := by
  simp only [smoothStep]
  split
  · exact List.length_set a i _
  · rfl

theorem smoothStep_getD_of_ne (a : List ℤ) (i j : ℕ) (h : i ≠ j) :
    (smoothStep a i).getD j 0 = a.getD j 0 := by
  simp only [smoothStep]
  split
  · exact getD_set_of_ne a i j _ h
  · rfl

/-- The state of the smoothing loop after its first `k` iterations
(indices `2, 3, ..., k + 1` processed). -/
def smoothUpTo (a : List ℤ) (k : ℕ) : List ℤ :=
  (List.range' 2 k).foldl smoothStep a

theorem smoothUpTo_succ (a : List ℤ) (k : ℕ) :
    smoothUpTo a (k + 1) = smoothStep (smoothUpTo a k) (2 + k) := by
  unfold smoothUpTo
  rw [List.range'_concat, List.foldl_append]
  simp

theorem smoothUpTo_length (a : List ℤ) : ∀ k,
    (smoothUpTo a k).length = a.length := by
  intro k
  induction k with
  | zero => rfl
  | succ k ih => rw [smoothUpTo_succ, smoothStep_length, ih]

theorem smoothUpTo_getD_of_untouched (a : List ℤ) : ∀ k m, k + 2 ≤ m →
    (smoothUpTo a k).getD m 0 = a.getD m 0 := by
  intro k
  induction k with
  | zero => intro m _; rfl
  | succ k ih =>
    intro m hm
    rw [smoothUpTo_succ, smoothStep_getD_of_ne _ _ _ (by omega)]
    exact ih m (by omega)

theorem smoothUpTo_getD_stable (a : List ℤ) (j : ℕ) : ∀ k, j ≤ k →
    ∀ m, m ≤ j + 1 →
      (smoothUpTo a k).getD m 0 = (smoothUpTo a j).getD m 0 := by
  intro k
  induction k with
  | zero =>
    intro hj m _
    have : j = 0 := by omega
    subst this
    rfl
  | succ k ih =>
    intro hj m hm
    by_cases hjk : j = k + 1
    · subst hjk; rfl
    · have hj' : j ≤ k := by omega
      rw [smoothUpTo_succ, smoothStep_getD_of_ne _ _ _ (by omega)]
      exact ih hj' m hm

theorem smoothMidi_eq_smoothUpTo (a : List ℤ) :
    smoothMidi a = smoothUpTo a (a.length - 4) := rfl

theorem windowAt_eq (b : List ℤ) (i : ℕ) (h2 : 2 ≤ i) :
    windowAt b i = [b.getD (i - 2) 0, b.getD (i - 1) 0, b.getD i 0,
      b.getD (i + 1) 0, b.getD (i + 2) 0] := by
  unfold windowAt
  have h5 : List.range' (i - 2) 5 =
      [i - 2, i - 2 + 1, i - 2 + 2, i - 2 + 3, i - 2 + 4] := by
    simp [List.range'_succ]
  rw [h5]
  have e1 : i - 2 + 1 = i - 1 := by omega
  have e2 : i - 2 + 2 = i := by omega
  have e3 : i - 2 + 3 = i + 1 := by omega
  have e4 : i - 2 + 4 = i + 2 := by omega
  rw [e1, e2, e3, e4]
  rfl

/-- C3 counterexample: on the frame sequence `[0,0,5,0,0,5,5]` the code's
in-place pass yields value `0` at index 4, while the snapshot reading of
the claim (every window taken from the unmodified input) yields `5`:
by the time index 4 is processed, indices 2 and 3 have already been
overwritten with `0`. -/
theorem smoothing_snapshot_cex :
    smoothMidi [0, 0, 5, 0, 0, 5, 5] ≠
      smoothSnapshotClaim [0, 0, 5, 0, 0, 5, 5] := by
  norm_num [smoothMidi, smoothSnapshotClaim, smoothStep, windowAt, npMedianInt,
    npMedian, pyTrunc, List.insertionSort, List.orderedInsert, List.range',
    List.getD, List.range, List.range.loop, smoothUpTo]

/-- C3 (amended): the smoothing pass leaves the first two and the last two
frames unchanged; for an interior frame `i` it operates in place, left to
right, so the value written at `i` is the median of the non-sentinel
values among the already-smoothed frames `i-2`, `i-1` and the original
frames `i`, `i+1`, `i+2`, when at least three of those five are
non-sentinel, and the original value otherwise. -/
theorem smoothing_characterization (a : List ℤ) (i : ℕ) :
    ((i < 2 ∨ a.length ≤ i + 2) → (smoothMidi a).getD i 0 = a.getD i 0) ∧
      (2 ≤ i → i + 2 < a.length →
        (smoothMidi a).getD i 0 =
          (if 3 ≤ (([(smoothMidi a).getD (i - 2) 0, (smoothMidi a).getD (i - 1) 0,
              a.getD i 0, a.getD (i + 1) 0, a.getD (i + 2) 0]).filter
                (fun v => decide (0 ≤ v))).length
          then npMedianInt (([(smoothMidi a).getD (i - 2) 0,
              (smoothMidi a).getD (i - 1) 0, a.getD i 0, a.getD (i + 1) 0,
              a.getD (i + 2) 0]).filter (fun v => decide (0 ≤ v)))
          else a.getD i 0)) := by
  constructor
  · intro hb
    rw [smoothMidi_eq_smoothUpTo]
    rcases hb with hb | hb
    · -- never-written low indices: stability down to the empty run
      have := smoothUpTo_getD_stable a 0 (a.length - 4) (by omega) i (by omega)
      simpa [smoothUpTo] using this
    · by_cases hi : i ≤ 1
      · have := smoothUpTo_getD_stable a 0 (a.length - 4) (by omega) i (by omega)
        simpa [smoothUpTo] using this
      · exact smoothUpTo_getD_of_untouched a (a.length - 4) i (by omega)
  · intro h2 hlt
    have hfin : (smoothMidi a).getD i 0 = (smoothUpTo a (i - 1)).getD i 0 := by
      rw [smoothMidi_eq_smoothUpTo]
      exact smoothUpTo_getD_stable a (i - 1) (a.length - 4) (by omega) i (by omega)
    have hstep : smoothUpTo a (i - 1) = smoothStep (smoothUpTo a (i - 2)) i := by
      have hk : i - 1 = (i - 2) + 1 := by omega
      rw [hk, smoothUpTo_succ]
      have : 2 + (i - 2) = i := by omega
      rw [this]
    have hm2 : (smoothUpTo a (i - 2)).getD (i - 2) 0 =
        (smoothMidi a).getD (i - 2) 0 := by
      rw [smoothMidi_eq_smoothUpTo]
      rw [smoothUpTo_getD_stable a (i - 3) (i - 2) (by omega) (i - 2) (by omega),
        ← smoothUpTo_getD_stable a (i - 3) (a.length - 4) (by omega) (i - 2) (by omega)]
    have hm1 : (smoothUpTo a (i - 2)).getD (i - 1) 0 =
        (smoothMidi a).getD (i - 1) 0 := by
      rw [smoothMidi_eq_smoothUpTo]
      exact (smoothUpTo_getD_stable a (i - 2) (a.length - 4) (by omega) (i - 1)
        (by omega)).symm
    have hi0 : (smoothUpTo a (i - 2)).getD i 0 = a.getD i 0 :=
      smoothUpTo_getD_of_untouched a (i - 2) i (by omega)
    have hi1 : (smoothUpTo a (i - 2)).getD (i + 1) 0 = a.getD (i + 1) 0 :=
      smoothUpTo_getD_of_untouched a (i - 2) (i + 1) (by omega)
    have hi2 : (smoothUpTo a (i - 2)).getD (i + 2) 0 = a.getD (i + 2) 0 :=
      smoothUpTo_getD_of_untouched a (i - 2) (i + 2) (by omega)
    have hwin : windowAt (smoothUpTo a (i - 2)) i =
        [(smoothMidi a).getD (i - 2) 0, (smoothMidi a).getD (i - 1) 0,
          a.getD i 0, a.getD (i + 1) 0, a.getD (i + 2) 0] := by
      rw [windowAt_eq _ i h2, hm2, hm1, hi0, hi1, hi2]
    rw [hfin, hstep]
    simp only [smoothStep, hwin]
    split
    · exact getD_set_self _ i _ (by rw [smoothUpTo_length]; omega)
    · exact hi0

/-- Witness for C3's amended statement at `a = [0,0,5,0,0,5,5]`, `i = 4`. -/
theorem smoothing_characterization_witness :
    2 ≤ 4 ∧ 4 + 2 < ([0, 0, 5, 0, 0, 5, 5] : List ℤ).length ∧
      (smoothMidi [0, 0, 5, 0, 0, 5, 5]).getD 4 0 =
        (if 3 ≤ (([(smoothMidi [0, 0, 5, 0, 0, 5, 5]).getD (4 - 2) 0,
            (smoothMidi [0, 0, 5, 0, 0, 5, 5]).getD (4 - 1) 0,
            ([0, 0, 5, 0, 0, 5, 5] : List ℤ).getD 4 0,
            ([0, 0, 5, 0, 0, 5, 5] : List ℤ).getD (4 + 1) 0,
            ([0, 0, 5, 0, 0, 5, 5] : List ℤ).getD (4 + 2) 0]).filter
              (fun v => decide (0 ≤ v))).length
        then npMedianInt (([(smoothMidi [0, 0, 5, 0, 0, 5, 5]).getD (4 - 2) 0,
            (smoothMidi [0, 0, 5, 0, 0, 5, 5]).getD (4 - 1) 0,
            ([0, 0, 5, 0, 0, 5, 5] : List ℤ).getD 4 0,
            ([0, 0, 5, 0, 0, 5, 5] : List ℤ).getD (4 + 1) 0,
            ([0, 0, 5, 0, 0, 5, 5] : List ℤ).getD (4 + 2) 0]).filter
              (fun v => decide (0 ≤ v)))
        else ([0, 0, 5, 0, 0, 5, 5] : List ℤ).getD 4 0) :=
  ⟨by norm_num, by norm_num,
    (smoothing_characterization [0, 0, 5, 0, 0, 5, 5] 4).2 (by norm_num) (by norm_num)⟩

/-- One write to the job's record: `redis_conn.hset(job_key(job_id), ...)`
with a `state`, a `progress` and an optional `message` field. -/
structure Write where
  state : String
  progress : ℤ
  message : Option String
deriving DecidableEq

/-- The four canonical stem names of `find_stem_folder` and the copy loop. -/
def expectedStems : List String :=
  ["bass.wav", "drums.wav", "other.wav", "vocals.wav"]

/-- How many of the four expected stem files exist directly inside
directory `d` (paths are component lists; the file system is a static
list of file paths). -/
def stemScore (fs : List (List String)) (d : List String) : ℕ :=
  (expectedStems.filter (fun n => decide ((d ++ [n]) ∈ fs))).length

/-- Model of `find_stem_folder` from `tasks.py`: candidates are the parents of every
`bass.wav` found anywhere in the tree, scored by how many of the four
expected stems they contain; the candidates are sorted by descending score
(Python's stable `sort(..., reverse=True)`) and the best one is returned. -/
def find_stem_folder (fs : List (List String)) : Option (List String) :=
  match List.insertionSort (fun a b : ℕ × List String => b.1 ≤ a.1)
      ((fs.filter (fun p => decide (p.getLastD "" = "bass.wav"))).map
        (fun p => (stemScore fs p.dropLast, p.dropLast))) with
  | [] => none
  | c :: _ => some c.2

/-- The de-duplicating emission loop over the subprocess's output lines:
per line, extract a percentage, clamp it, rescale it into `[5, 85]` and
emit a `running` write only when the scaled value changed. -/
def lineLoop : List String → ℤ → List Write
  | [], _ => []
  | l :: ls, last =>
    match pctOfLine l with
    | none => lineLoop ls last
    | some p =>
      let s := scaledOf p
      if s ≠ last then
        ⟨"running", s, some ("Separating… " ++ toString (clamp p 0 100) ++ "%")⟩ ::
          lineLoop ls s
      else lineLoop ls last

/-- Environment abstracting the effects of `separate_with_demucs`: whether
an `original.*` upload exists, the subprocess's output lines, an optional
exception (raised after `excAfter` lines were processed, carrying the
exception text), the exit code, and the scratch-tree file listing. -/
structure SepEnv where
  hasOriginal : Bool
  lines : List String
  exc : Option (ℕ × String)
  rc : ℤ
  fs : List (List String)

/-- The sequence of job-record writes `separate_with_demucs` performs,
in program order. -/
def separateWrites (env : SepEnv) : List Write :=
  let w1 : List Write := [⟨"running", 1, some "Preparing Demucs..."⟩]
  if env.hasOriginal = false then
    w1 ++ [⟨"failed", 0, some "No uploaded audio"⟩]
  else
    let w2 := w1 ++ [⟨"running", 5, some "Running Demucs (htdemucs)..."⟩]
    match env.exc with
    | some ke =>
      w2 ++ lineLoop (env.lines.take ke.1) (-1) ++
        [⟨"failed", 0, some ("Demucs exception: " ++ ke.2)⟩]
    | none =>
      let w3 := w2 ++ lineLoop env.lines (-1)
      if env.rc ≠ 0 then
        w3 ++ [⟨"failed", 0, some "Demucs failed. Check worker logs."⟩]
      else
        let w4 := w3 ++ [⟨"running", 90, some "Collecting stems..."⟩]
        match find_stem_folder env.fs with
        | none => w4 ++ [⟨"failed", 0, some "No demucs output found"⟩]
        | some d =>
          if stemScore env.fs d = 0 then
            w4 ++ [⟨"failed", 0, some "No stems copied"⟩]
          else
            w4 ++ [⟨"succeeded", 100, some "Stems ready (Demucs)."⟩]

/-- Environment abstracting the effects of `transcribe_monophonic`:
whether the stem file exists, the per-frame integer note sequence the
(external) pitch estimator yields after `hz_to_midi` conversion, and the
optional exceptions of the four external calls (audio load, pyin, MIDI
write, MusicXML conversion), each carrying its exception text. -/
structure TransEnv where
  stemName : String
  stemExists : Bool
  loadExc : Option String
  pyinExc : Option String
  frames : List ℤ
  midiExc : Option String
  xmlExc : Option String

/-- The body of `transcribe_monophonic`'s `try:` block: the writes it
performs in order, and either a normal return or the first exception
raised.  The segmentation uses hop `256/22050` (sr 22050, hop_length 256)
and minimum note length `0.06`. -/
def transcribeBody (env : TransEnv) : List Write × Except String Unit :=
  let w1 : List Write := [⟨"running", 1, some "Preparing transcription..."⟩]
  if env.stemExists = false then
    (w1 ++ [⟨"failed", 0, some ("Stem not found: " ++ env.stemName)⟩], Except.ok ())
  else
    let w2 := w1 ++ [⟨"running", 5, some "Loading audio..."⟩]
    match env.loadExc with
    | some e => (w2, Except.error e)
    | none =>
      let w3 := w2 ++ [⟨"running", 15, some "Detecting pitch (pyin)..."⟩]
      match env.pyinExc with
      | some e => (w3, Except.error e)
      | none =>
        let smoothed := smoothMidi env.frames
        let w4 := w3 ++ [⟨"running", 35, some "Building notes..."⟩]
        let notes := segmentNotes (256 / 22050) (6 / 100) smoothed
        if notes = [] then
          (w4 ++ [⟨"failed", 0,
            some "No notes detected (try bass stem, or cleaner audio)."⟩],
            Except.ok ())
        else
          let w5 := w4 ++ [⟨"running", 55, some "Writing MIDI..."⟩]
          match env.midiExc with
          | some e => (w5, Except.error e)
          | none =>
            let w6 := w5 ++ [⟨"running", 75, some "Converting to MusicXML..."⟩]
            match env.xmlExc with
            | some e => (w6, Except.error e)
            | none =>
              (w6 ++ [⟨"succeeded", 100,
                some "Transcription ready (MIDI + MusicXML)."⟩], Except.ok ())

/-- Model of `transcribe_monophonic` with its `except Exception` handler: any
exception from the body is recorded as a `failed` write carrying the
exception text and then re-raised. -/
def transcribeRun (env : TransEnv) : List Write × Except String Unit :=
  match transcribeBody env with
  | (w, Except.ok ()) => (w, Except.ok ())
  | (w, Except.error e) =>
    (w ++ [⟨"failed", 0, some ("Transcription exception: " ++ e)⟩],
      Except.error e)

/-- The job-record invariant of the spec: progress stays in `[0, 100]`,
a `succeeded` write carries progress 100 and a `failed` write progress 0. -/
def writeOK (w : Write) : Prop :=
  (0 ≤ w.progress ∧ w.progress ≤ 100) ∧
    (w.state = "succeeded" → w.progress = 100) ∧
    (w.state = "failed" → w.progress = 0)

theorem lineLoop_mem (ls : List String) : ∀ last w, w ∈ lineLoop ls last →
    w.state = "running" ∧ 5 ≤ w.progress ∧ w.progress ≤ 85 := by
  induction ls with
  | nil =>
    intro last w h
    simp [lineLoop] at h
  | cons l ls ih =>
    intro last w h
    simp only [lineLoop] at h
    split at h
    · exact ih _ w h
    · split at h
      · rcases List.mem_cons.mp h with rfl | hmem
        · exact ⟨rfl, (scaledOf_bounds _).1, (scaledOf_bounds _).2⟩
        · exact ih _ w hmem
      · exact ih _ w h

theorem find_stem_folder_bass (fs : List (List String)) (d : List String)
    (h : find_stem_folder fs = some d) :
    (d ++ ["bass.wav"]) ∈ fs ∧ 1 ≤ stemScore fs d := by
  unfold find_stem_folder at h
  rcases hs : List.insertionSort (fun a b : ℕ × List String => b.1 ≤ a.1)
      ((fs.filter (fun p => decide (p.getLastD "" = "bass.wav"))).map
        (fun p => (stemScore fs p.dropLast, p.dropLast))) with _ | ⟨c, cs⟩
  · rw [hs] at h
    exact absurd h (by simp)
  · rw [hs] at h
    have hcd : c.2 = d := Option.some.inj h
    have hcmem : c ∈ (fs.filter (fun p => decide (p.getLastD "" = "bass.wav"))).map
        (fun p => (stemScore fs p.dropLast, p.dropLast)) := by
      have hperm := List.perm_insertionSort
        (fun a b : ℕ × List String => b.1 ≤ a.1)
        ((fs.filter (fun p => decide (p.getLastD "" = "bass.wav"))).map
          (fun p => (stemScore fs p.dropLast, p.dropLast)))
      exact hperm.mem_iff.mp (by rw [hs]; exact List.mem_cons_self c cs)
    rcases List.mem_map.mp hcmem with ⟨p, hpmem, hpc⟩
    rcases List.mem_filter.mp hpmem with ⟨hpfs, hplast⟩
    have hlast : p.getLastD "" = "bass.wav" := of_decide_eq_true hplast
    rcases List.eq_nil_or_concat p with rfl | ⟨q, a, rfl⟩
    · simp at hlast
    · have ha : a = "bass.wav" := by simpa using hlast
      have hdq : d = q := by
        rw [← hcd, ← hpc]
        simp
      subst ha hdq
      have hmem : (d ++ ["bass.wav"]) ∈ fs := by
        simpa [List.concat_eq_append] using hpfs
      refine ⟨hmem, ?_⟩
      have hbass : "bass.wav" ∈ expectedStems.filter
          (fun n => decide ((d ++ [n]) ∈ fs)) :=
        List.mem_filter.mpr ⟨by simp [expectedStems], by simpa using hmem⟩
      have := List.length_pos.mpr (List.ne_nil_of_mem hbass)
      unfold stemScore
      omega


/-- The three possible kinds of job-record write `separate_with_demucs`
performs; the `No stems copied` failure never occurs. -/
def sepWriteOK (w : Write) : Prop :=
  (w.state = "running" ∧ 0 ≤ w.progress ∧ w.progress ≤ 100) ∨
    (w.state = "failed" ∧ w.progress = 0 ∧
      w.message ≠ some "No stems copied") ∨
    (w.state = "succeeded" ∧ w.progress = 100)

instance (w : Write) : Decidable (sepWriteOK w) := by
  unfold sepWriteOK
  infer_instance

theorem sepWriteOK_demucs_exc (t : String) :
    sepWriteOK ⟨"failed", 0, some ("Demucs exception: " ++ t)⟩ := by
  refine Or.inr (Or.inl ⟨rfl, rfl, ?_⟩)
  intro hmsg
  have h1 : "Demucs exception: " ++ t = "No stems copied" :=
    Option.some.inj (by simpa using hmsg)
  have h2 := congrArg String.length h1
  rw [String.length_append] at h2
  have h3 : ("Demucs exception: ").length = 18 := rfl
  have h4 : ("No stems copied").length = 15 := rfl
  omega

theorem separateWrites_mem (env : SepEnv) (w : Write)
    (h : w ∈ separateWrites env) : sepWriteOK w := by
  simp only [separateWrites, List.append_assoc, List.cons_append,
    List.nil_append] at h
  split at h
  · rcases List.mem_cons.mp h with rfl | h
    · decide
    · rcases List.mem_cons.mp h with rfl | h
      · decide
      · simp at h
  · split at h
    · rcases List.mem_cons.mp h with rfl | h
      · decide
      · rcases List.mem_cons.mp h with rfl | h
        · decide
        · rcases List.mem_append.mp h with h | h
          · exact Or.inl ⟨(lineLoop_mem _ _ w h).1, by
              have := (lineLoop_mem _ _ w h).2
              omega⟩
          · rcases List.mem_cons.mp h with rfl | h
            · exact sepWriteOK_demucs_exc _
            · simp at h
    · split at h
      · rcases List.mem_cons.mp h with rfl | h
        · decide
        · rcases List.mem_cons.mp h with rfl | h
          · decide
          · rcases List.mem_append.mp h with h | h
            · exact Or.inl ⟨(lineLoop_mem _ _ w h).1, by
                have := (lineLoop_mem _ _ w h).2
                omega⟩
            · rcases List.mem_cons.mp h with rfl | h
              · decide
              · simp at h
      · split at h
        · rcases List.mem_cons.mp h with rfl | h
          · decide
          · rcases List.mem_cons.mp h with rfl | h
            · decide
            · rcases List.mem_append.mp h with h | h
              · exact Or.inl ⟨(lineLoop_mem _ _ w h).1, by
                  have := (lineLoop_mem _ _ w h).2
                  omega⟩
              · rcases List.mem_cons.mp h with rfl | h
                · decide
                · rcases List.mem_cons.mp h with rfl | h
                  · decide
                  · simp at h
        · split at h
          · rename_i d hfind hsc
            exact absurd (find_stem_folder_bass env.fs d hfind).2 (by omega)
          · rcases List.mem_cons.mp h with rfl | h
            · decide
            · rcases List.mem_cons.mp h with rfl | h
              · decide
              · rcases List.mem_append.mp h with h | h
                · exact Or.inl ⟨(lineLoop_mem _ _ w h).1, by
                    have := (lineLoop_mem _ _ w h).2
                    omega⟩
                · rcases List.mem_cons.mp h with rfl | h
                  · decide
                  · rcases List.mem_cons.mp h with rfl | h
                    · decide
                    · simp at h

theorem writeOK_running (p : ℤ) (m : Option String) (h0 : 0 ≤ p)
    (h1 : p ≤ 100) : writeOK ⟨"running", p, m⟩ :=
  ⟨⟨h0, h1⟩, fun hs => absurd hs (show ¬"running" = "succeeded" by decide),
    fun hs => absurd hs (show ¬"running" = "failed" by decide)⟩

theorem writeOK_failed0 (m : Option String) : writeOK ⟨"failed", 0, m⟩ :=
  ⟨⟨le_refl 0, by norm_num⟩,
    fun hs => absurd hs (show ¬"failed" = "succeeded" by decide), fun _ => rfl⟩

theorem writeOK_succ100 (m : Option String) : writeOK ⟨"succeeded", 100, m⟩ :=
  ⟨⟨by norm_num, le_refl 100⟩, fun _ => rfl,
    fun hs => absurd hs (show ¬"succeeded" = "failed" by decide)⟩

theorem transcribeBody_mem (env : TransEnv) (w : Write)
    (h : w ∈ (transcribeBody env).1) : writeOK w := by
  simp only [transcribeBody, List.append_assoc, List.cons_append,
    List.nil_append] at h
  split at h
  · simp only [List.mem_cons, List.not_mem_nil, or_false] at h
    rcases h with rfl | rfl
    · exact writeOK_running _ _ (by norm_num) (by norm_num)
    · exact writeOK_failed0 _
  · split at h
    · simp only [List.mem_cons, List.not_mem_nil, or_false] at h
      rcases h with rfl | rfl <;>
        exact writeOK_running _ _ (by norm_num) (by norm_num)
    · split at h
      · simp only [List.mem_cons, List.not_mem_nil, or_false] at h
        rcases h with rfl | rfl | rfl <;>
          exact writeOK_running _ _ (by norm_num) (by norm_num)
      · split at h
        · simp only [List.mem_cons, List.not_mem_nil, or_false] at h
          rcases h with rfl | rfl | rfl | rfl | rfl
          · exact writeOK_running _ _ (by norm_num) (by norm_num)
          · exact writeOK_running _ _ (by norm_num) (by norm_num)
          · exact writeOK_running _ _ (by norm_num) (by norm_num)
          · exact writeOK_running _ _ (by norm_num) (by norm_num)
          · exact writeOK_failed0 _
        · split at h
          · simp only [List.mem_cons, List.not_mem_nil, or_false] at h
            rcases h with rfl | rfl | rfl | rfl | rfl <;>
              exact writeOK_running _ _ (by norm_num) (by norm_num)
          · split at h
            · simp only [List.mem_cons, List.not_mem_nil, or_false] at h
              rcases h with rfl | rfl | rfl | rfl | rfl | rfl <;>
                exact writeOK_running _ _ (by norm_num) (by norm_num)
            · simp only [List.mem_cons, List.not_mem_nil, or_false] at h
              rcases h with rfl | rfl | rfl | rfl | rfl | rfl | rfl
              · exact writeOK_running _ _ (by norm_num) (by norm_num)
              · exact writeOK_running _ _ (by norm_num) (by norm_num)
              · exact writeOK_running _ _ (by norm_num) (by norm_num)
              · exact writeOK_running _ _ (by norm_num) (by norm_num)
              · exact writeOK_running _ _ (by norm_num) (by norm_num)
              · exact writeOK_running _ _ (by norm_num) (by norm_num)
              · exact writeOK_succ100 _


theorem transcribeRun_mem (env : TransEnv) (w : Write)
    (h : w ∈ (transcribeRun env).1) : writeOK w := by
  rcases hb : transcribeBody env with ⟨bw, br⟩
  rcases br with e | u
  · have hrun : transcribeRun env =
        (bw ++ [⟨"failed", 0, some ("Transcription exception: " ++ e)⟩],
          Except.error e) := by
      unfold transcribeRun
      rw [hb]
    rw [hrun] at h
    rcases List.mem_append.mp h with h | h
    · exact transcribeBody_mem env w (by rw [hb]; exact h)
    · rcases List.mem_cons.mp h with rfl | h
      · exact writeOK_failed0 _
      · simp at h
  · cases u
    have hrun : transcribeRun env = (bw, Except.ok ()) := by
      unfold transcribeRun
      rw [hb]
    rw [hrun] at h
    exact transcribeBody_mem env w (by rw [hb]; exact h)

/-- C8: every job-record write made by `separate_with_demucs` or
`transcribe_monophonic` keeps progress within `[0, 100]`; a write that
sets state `succeeded` sets progress `100`, and a write that sets state
`failed` sets progress `0`. -/
theorem job_writes_invariant (se : SepEnv) (te : TransEnv) (w : Write) :
    (w ∈ separateWrites se → writeOK w) ∧
      (w ∈ (transcribeRun te).1 → writeOK w) := by
  constructor
  · intro h
    rcases separateWrites_mem se w h with ⟨hst, h0, h100⟩ | ⟨hst, h0, _⟩ |
        ⟨hst, h100⟩
    · exact ⟨⟨h0, h100⟩,
        fun hs => absurd (hst ▸ hs) (by decide),
        fun hs => absurd (hst ▸ hs) (by decide)⟩
    · exact ⟨⟨by omega, by omega⟩,
        fun hs => absurd (hst ▸ hs) (by decide), fun _ => h0⟩
    · exact ⟨⟨by omega, by omega⟩, fun _ => h100,
        fun hs => absurd (hst ▸ hs) (by decide)⟩
  · exact transcribeRun_mem te w

/-- Witness for C8: the initial write of a separation run with no upload
and the initial write of a transcription run with a missing stem. -/
theorem job_writes_invariant_witness :
    (⟨"running", 1, some "Preparing Demucs..."⟩ : Write) ∈
      separateWrites ⟨false, [], none, 1, []⟩ ∧
      writeOK ⟨"running", 1, some "Preparing Demucs..."⟩ :=
  ⟨by decide,
    (job_writes_invariant ⟨false, [], none, 1, []⟩
      ⟨"bass.wav", false, none, none, [], none, none⟩
      ⟨"running", 1, some "Preparing Demucs..."⟩).1 (by decide)⟩

/-- C9: any exception raised inside `transcribe_monophonic` is caught, the
job is written `failed` with progress 0 and a message carrying the
exception's text, and the same exception is re-raised to the caller; when
no exception is configured the function returns normally. -/
theorem transcription_exception_policy (env : TransEnv) :
    (transcribeRun env).2 = (transcribeBody env).2 ∧
      (∀ e, (transcribeRun env).2 = Except.error e →
        (transcribeRun env).1.getLast? =
          some ⟨"failed", 0, some ("Transcription exception: " ++ e)⟩) ∧
      (env.loadExc = none → env.pyinExc = none → env.midiExc = none →
        env.xmlExc = none → (transcribeRun env).2 = Except.ok ()) := by
  have hbody : ∀ e, env.loadExc = none → env.pyinExc = none →
      env.midiExc = none → env.xmlExc = none →
      (transcribeBody env).2 ≠ Except.error e := by
    intro e h1 h2 h3 h4
    simp only [transcribeBody, h1, h2, h3, h4]
    split
    · simp
    · split <;> simp
  rcases hb : transcribeBody env with ⟨bw, br⟩
  rcases br with e2 | u
  · have hrun : transcribeRun env =
        (bw ++ [⟨"failed", 0, some ("Transcription exception: " ++ e2)⟩],
          Except.error e2) := by
      unfold transcribeRun
      rw [hb]
    refine ⟨?_, ?_, ?_⟩
    · simp [hrun, hb]
    · intro e he
      rw [hrun] at he
      have hee : e2 = e := by
        simpa using he
      subst hee
      rw [hrun]
      simp
    · intro h1 h2 h3 h4
      exact absurd (by rw [hb] : (transcribeBody env).2 = Except.error e2)
        (hbody e2 h1 h2 h3 h4)
  · cases u
    have hrun : transcribeRun env = (bw, Except.ok ()) := by
      unfold transcribeRun
      rw [hb]
    refine ⟨?_, ?_, ?_⟩
    · simp [hrun, hb]
    · intro e he
      rw [hrun] at he
      simp at he
    · intro _ _ _ _
      rw [hrun]

/-- Witness for C9 with a load-time exception `"boom"`. -/
theorem transcription_exception_policy_witness :
    (transcribeRun ⟨"bass.wav", true, some "boom", none, [], none, none⟩).2 =
        Except.error "boom" ∧
      (transcribeRun ⟨"bass.wav", true, some "boom", none, [], none,
          none⟩).1.getLast? =
        some ⟨"failed", 0, some ("Transcription exception: " ++ "boom")⟩ :=
  ⟨by rfl,
    (transcription_exception_policy
      ⟨"bass.wav", true, some "boom", none, [], none, none⟩).2.1 "boom"
      (by rfl)⟩

/-- C10: whenever `find_stem_folder` returns a directory, that directory
contains `bass.wav`, so the copy loop copies at least one stem and the
`"No stems copied"` failure write is unreachable (over the static
file-system model). -/
theorem no_stems_copied_unreachable (fs : List (List String))
    (d : List String) :
    (find_stem_folder fs = some d →
      (d ++ ["bass.wav"]) ∈ fs ∧ 1 ≤ stemScore fs d) ∧
      ∀ env : SepEnv,
        (⟨"failed", 0, some "No stems copied"⟩ : Write) ∉ separateWrites env := by
  constructor
  · exact find_stem_folder_bass fs d
  · intro env hmem
    rcases separateWrites_mem env _ hmem with ⟨hst, _, _⟩ | ⟨_, _, hmsg⟩ |
        ⟨hst, _⟩
    · exact absurd hst (by decide)
    · exact hmsg rfl
    · exact absurd hst (by decide)

/-- Witness for C10 at a one-file scratch tree. -/
theorem no_stems_copied_unreachable_witness :
    find_stem_folder [["htdemucs", "song", "bass.wav"]] =
        some ["htdemucs", "song"] ∧
      (["htdemucs", "song"] ++ ["bass.wav"]) ∈
          [["htdemucs", "song", "bass.wav"]] ∧
        1 ≤ stemScore [["htdemucs", "song", "bass.wav"]] ["htdemucs", "song"] :=
  ⟨by decide,
    (no_stems_copied_unreachable [["htdemucs", "song", "bass.wav"]]
      ["htdemucs", "song"]).1 (by decide)⟩

end StemTranscriber
